import Mathlib

/-!
# libink: the lock-free message queue and the logger

A shallow embedding of `src/libink.cc` / `src/libink.h`.

* Memory is an explicit heap of `Node` cells.  A pointer is `Option Nat`
  (`none` is `NULL`), `new` returns a fresh address that was never used before,
  `delete` frees a cell, and every dereference of `NULL` or of a freed cell is an
  error (`none`).  Loops carry a fuel bound; running out of fuel is an error too.
* `Logger::Queue` is the three pointers `first`, `divider`, `last` over that heap.
* `Logger` is the record of its fields together with the lines appended to the
  sink and the program point of the worker thread.  The client thread and the
  worker thread are interleaved by a schedule: a list of `log` calls and worker
  steps.  The time stamps are a parameter `get_date_time : Nat → String`.
* Levels and status codes are `Int`; the code only compares and returns them.
-/

namespace ink

/-! ## Heap of queue nodes -/

/-- A pointer to a node: `none` is `NULL`, `some a` is the address `a`. -/
abbrev Ptr := Option Nat

/-- The node type `struct Node`: a `std::string value` and a `Node* next`. -/
structure Node where
  value : String
  next : Ptr
deriving DecidableEq, Repr

/-- The heap: cell `a` is `some n` while the node at address `a` is allocated,
`none` once it has been deleted.  Addresses at or beyond the length are unallocated. -/
abbrev Heap := List (Option Node)

/-- Read the node `p` points to; fails on `NULL`, on a freed and on an unallocated cell. -/
def Heap.deref (h : Heap) (p : Ptr) : Option Node :=
  match p with
  | none => none
  | some a =>
    match h[a]? with
    | some (some n) => some n
    | _ => none

/-- The expression `new Node(val)`: the constructor sets `value(val), next(NULL)`; the node is
placed at a fresh address. -/
def Heap.alloc (h : Heap) (val : String) : Heap × Ptr :=
  (h ++ [some ⟨val, none⟩], some h.length)

/-- The assignment `p->next = n`; fails when `p` cannot be dereferenced. -/
def Heap.setNext (h : Heap) (p : Ptr) (n : Ptr) : Option Heap :=
  match p, h.deref p with
  | some a, some nd => some (h.set a (some { nd with next := n }))
  | _, _ => none

/-- The statement `delete p`; fails when `p` is not an allocated node. -/
def Heap.free (h : Heap) (p : Ptr) : Option Heap :=
  match p, h.deref p with
  | some a, some _ => some (h.set a none)
  | _, _ => none

/-! ## Logger::Queue -/

/-- The class `Logger::Queue`: the node chain and its three cursors. -/
structure Queue where
  heap : Heap
  first : Ptr
  divider : Ptr
  last : Ptr
deriving DecidableEq, Repr

/-- The constructor `Queue::Queue()`: one dummy node holding the empty string; all three
cursors point at it. -/
def Queue.new : Queue :=
  let r := Heap.alloc [] ""
  { heap := r.1, first := r.2, divider := r.2, last := r.2 }

/-- The loop `while (first != divider) { tmp = first; first = first->next; delete tmp; }`
of `enqueue`.  Every iteration deletes an allocated node, so the number of
iterations is bounded by the number of cells; `fuel` is that bound and running
out of it is reported as an error. -/
def reclaim : Nat → Queue → Option Queue
  | 0, q => if q.first ≠ q.divider then none else some q
  | fuel + 1, q =>
    if q.first ≠ q.divider then
      match q.heap.deref q.first with
      | none => none
      | some nd =>
        match q.heap.free q.first with
        | none => none
        | some h => reclaim fuel { q with heap := h, first := nd.next }
    else some q

/-- The method `Queue::enqueue(t)`: `last->next = new Node(t); last = last->next;` and then
the reclamation loop. -/
def enqueue (t : String) (q : Queue) : Option Queue :=
  let r := q.heap.alloc t
  match r.1.setNext q.last r.2 with
  | none => none
  | some h =>
    match h.deref q.last with
    | none => none
    | some nd => reclaim h.length { q with heap := h, last := nd.next }

/-- The method `Queue::dequeue(result)`: the returned triple is the boolean result, the
content of the out-parameter `result` after the call, and the queue. -/
def dequeue (result : String) (q : Queue) : Option (Bool × String × Queue) :=
  if q.divider ≠ q.last then
    match q.heap.deref q.divider with
    | none => none
    | some d =>
      match q.heap.deref d.next with
      | none => none
      | some n => some (true, n.value, { q with divider := d.next })
  else some (false, result, q)

/-- The method `Queue::contains_one()`: `first->next == last`. -/
def contains_one (q : Queue) : Option Bool :=
  match q.heap.deref q.first with
  | none => none
  | some f => some (decide (f.next = q.last))

/-- First statement of `enqueue`, `last->next = new Node(t);`, on its own. -/
def enqueue_link (t : String) (q : Queue) : Option Queue :=
  let r := q.heap.alloc t
  match r.1.setNext q.last r.2 with
  | none => none
  | some h => some { q with heap := h }

/-- Second statement of `enqueue`, `__sync_lock_test_and_set(&last, last->next);`,
on its own. -/
def enqueue_publish (q : Queue) : Option Queue :=
  match q.heap.deref q.last with
  | none => none
  | some nd => some { q with last := nd.next }

/-- The closing loop of `enqueue` on its own. -/
def enqueue_reclaim (q : Queue) : Option Queue :=
  reclaim q.heap.length q

/-! ## Observations on a queue state -/

/-- The nodes met when following `next` links from `p` until `NULL`, as
(address, value) pairs.  Fails on a dangling link and when `fuel` links do not
reach `NULL`. -/
def chain (h : Heap) : Nat → Ptr → Option (List (Nat × String))
  | _, none => some []
  | 0, some _ => none
  | fuel + 1, some a =>
    match h.deref (some a) with
    | none => none
    | some nd =>
      match chain h fuel nd.next with
      | none => none
      | some rest => some ((a, nd.value) :: rest)

/-- Number of nodes the queue holds: the length of the chain that starts at `first`. -/
def nodeCount (q : Queue) : Option Nat :=
  (chain q.heap q.heap.length q.first).map List.length

/-- Number of allocated nodes: the heap cells that hold a node that was
created by `new` and not yet passed to `delete`. -/
def allocated (q : Queue) : Nat :=
  q.heap.countP fun cell => cell.isSome

/-- The unread records: the values of the nodes strictly after `divider`. -/
def unread (q : Queue) : Option (List String) :=
  (chain q.heap q.heap.length q.divider).map fun l => l.tail.map Prod.snd

/-- The retired nodes: the nodes from `first` up to but not including `divider`. -/
def retired (q : Queue) : Option (List (Nat × String)) :=
  (chain q.heap q.heap.length q.first).map fun l =>
    l.takeWhile fun c => decide (some c.1 ≠ q.divider)

/-! ## Operation sequences -/

/-- A call on the queue. -/
inductive Op where
  | enq (t : String)
  | deq
deriving DecidableEq, Repr

/-- Run a sequence of calls.  The output lists, for every `dequeue` in call
order, `some m` when it returned true with `result = m` and `none` when it
returned false. -/
def run : List Op → Queue → Option (List (Option String) × Queue)
  | [], q => some ([], q)
  | Op.enq t :: ops, q =>
    match enqueue t q with
    | none => none
    | some q1 => run ops q1
  | Op.deq :: ops, q =>
    match dequeue "" q with
    | none => none
    | some (b, res, q1) =>
      match run ops q1 with
      | none => none
      | some (outs, q2) => some ((if b then some res else none) :: outs, q2)

/-- The FIFO the specification describes: the list of messages enqueued and not
yet dequeued, oldest first. -/
def fifo : List Op → List String → List (Option String) × List String
  | [], pending => ([], pending)
  | Op.enq t :: ops, pending => fifo ops (pending ++ [t])
  | Op.deq :: ops, [] => let r := fifo ops []; (none :: r.1, r.2)
  | Op.deq :: ops, m :: pending => let r := fifo ops pending; (some m :: r.1, r.2)

/-- One statement-sized step of a thread that shares the queue: producer
thread `p` executes the first statement, the second statement or the loop of
its `enqueue(t)` call, or the consumer thread calls `dequeue`. -/
inductive Step where
  | link (p : Nat) (t : String)
  | publish (p : Nat)
  | reclaim (p : Nat)
  | deq
deriving DecidableEq, Repr

/-- Run an interleaving of steps of several threads; the output lists the
results of the `dequeue` calls as `run` does. -/
def runSteps : List Step → Queue → Option (List (Option String) × Queue)
  | [], q => some ([], q)
  | Step.link _ t :: st, q =>
    match enqueue_link t q with
    | none => none
    | some q1 => runSteps st q1
  | Step.publish _ :: st, q =>
    match enqueue_publish q with
    | none => none
    | some q1 => runSteps st q1
  | Step.reclaim _ :: st, q =>
    match enqueue_reclaim q with
    | none => none
    | some q1 => runSteps st q1
  | Step.deq :: st, q =>
    match dequeue "" q with
    | none => none
    | some (b, res, q1) =>
      match runSteps st q1 with
      | none => none
      | some (outs, q2) => some ((if b then some res else none) :: outs, q2)

/-- One enqueue/dequeue cycle: enqueue every message of `ms`, then call
`dequeue` once per message. -/
def cycleOps (ms : List String) : List Op :=
  ms.map Op.enq ++ List.replicate ms.length Op.deq

/-- The call sequence made of `k` cycles `cycleOps ms`. -/
def cycles (ms : List String) : Nat → List Op
  | 0 => []
  | k + 1 => cycleOps ms ++ cycles ms k

/-- The messages passed to `enqueue` by a call sequence, in call order. -/
def enqueued : List Op → List String
  | [] => []
  | Op.enq t :: ops => t :: enqueued ops
  | Op.deq :: ops => enqueued ops

/-- The messages handed out by the successful `dequeue` calls, in call order. -/
def delivered (outs : List (Option String)) : List String :=
  outs.filterMap id

/-- The cursor invariant.  Following `next` from `first` gives a chain of
distinct allocated nodes `pre ++ c :: un` that ends in `NULL`; `divider` is the
node `c`, `last` is the final node of the chain and its `next` is `NULL`, and
the values of the nodes after `divider` are the records `pending`. -/
def CursorInv (q : Queue) (pending : List String) : Prop :=
  ∃ (pre : List (Nat × String)) (c : Nat × String) (un : List (Nat × String)),
    chain q.heap q.heap.length q.first = some (pre ++ c :: un) ∧
    q.first = some ((pre ++ [c]).headD c).1 ∧
    q.divider = some c.1 ∧
    q.last = some ((c :: un).getLastD c).1 ∧
    (q.heap.deref q.last).map Node.next = some none ∧
    ((pre ++ c :: un).map Prod.fst).Nodup ∧
    un.map Prod.snd = pending

/-! ## Canonical queue states -/

/-- The heap of a queue in canonical form: `f` freed cells followed by the live
nodes holding `vals`, each linked to the cell after it and the final one to `NULL`. -/
def absHeap (f : Nat) (vals : List String) : Heap :=
  (List.range (f + vals.length)).map fun i =>
    if i < f then none
    else some ⟨vals.getD (i - f) "", if i + 1 < f + vals.length then some (i + 1) else none⟩

/-- The queue state with `f` freed cells, retired values `pre`, the value `c`
in the node `divider` points to, and unread values `un`. -/
def absQueue (f : Nat) (pre : List String) (c : String) (un : List String) : Queue :=
  { heap := absHeap f (pre ++ c :: un)
    first := some f
    divider := some (f + pre.length)
    last := some (f + pre.length + un.length) }

/-! ## Logger -/

/-- Program point of the worker thread running `Logger::logger_impl`. -/
inductive Pc where
  /-- no worker thread exists -/
  | absent
  /-- blocked in `pthread_cond_wait` -/
  | waiting
  /-- about to call `m_queue->dequeue(str)` -/
  | dequeuing
  /-- inside `while (status)`, about to write `str` -/
  | writing
  /-- after the inner loop, about to evaluate `while (!m_terminate)` -/
  | checking
  /-- returned from `logger_impl` -/
  | exited
deriving DecidableEq, Repr

/-- The class `Logger`: its fields, the lines appended through `m_log_filestream`
(`sink`), the diagnostics sent to `std::cerr`, the program point of the worker
thread and its local `str`, and the number of `pthread_cond_signal` calls made so far. -/
structure Logger where
  m_log_filename : String
  m_header : String
  m_level : Int
  m_logger_started : Bool
  m_logger_died : Bool
  m_terminate : Bool
  m_queue : Queue
  is_open : Bool
  sink : List String
  cerr : List String
  worker : Pc
  str : String
  signals : Nat
deriving DecidableEq, Repr

/-- The constructor `Logger::Logger(level, log_file, header)`. -/
def Logger.new (level : Int) (log_file header : String) : Logger :=
  { m_log_filename := log_file
    m_header := header
    m_level := level
    m_logger_started := false
    m_logger_died := false
    m_terminate := false
    m_queue := Queue.new
    is_open := false
    sink := []
    cerr := []
    worker := Pc.absent
    str := ""
    signals := 0 }

/-- The method `Logger::set_level`. -/
def set_level (level : Int) (s : Logger) : Logger := { s with m_level := level }

/-- The method `Logger::set_header`. -/
def set_header (header : String) (s : Logger) : Logger := { s with m_header := header }

/-- The method `Logger::set_log_file`. -/
def set_log_file (filename : String) (s : Logger) : Logger :=
  { s with m_log_filename := filename }

/-- The method `Logger::start()`.  `openOk` tells whether the operating system grants the
open for append; a stream that is already open stays open.  The function
returns the status code and the new state.  `pthread_create` is taken to
succeed: the new thread runs `logger_impl` and blocks in `pthread_cond_wait`. -/
def start (openOk : Bool) (s : Logger) : Int × Logger :=
  let s1 := { s with is_open := s.is_open || openOk }
  if s1.is_open then
    (0, { s1 with worker := Pc.waiting, m_logger_started := true })
  else (1, s1)

/-- The call `pthread_cond_signal(&m_cond)`: a worker blocked in `pthread_cond_wait`
is released; otherwise the signal has no effect. -/
def cond_signal (s : Logger) : Logger :=
  { s with
    signals := s.signals + 1
    worker := if s.worker = Pc.waiting then Pc.dequeuing else s.worker }

/-- The method `Logger::log(level, message)`. -/
def log (level : Int) (message : String) (s : Logger) : Option Logger :=
  if level ≤ s.m_level ∧ s.m_terminate = false then
    match enqueue message s.m_queue with
    | none => none
    | some q =>
      match contains_one q with
      | none => none
      | some one =>
        let s1 := { s with m_queue := q }
        some (if one then cond_signal s1 else s1)
  else some s

/-- One line of the log file: `get_date_time() << " " << m_header << ": " << str << "\n"`. -/
def render (time header str : String) : String :=
  time ++ " " ++ header ++ ": " ++ str ++ "\n"

/-- One step of the worker thread in `Logger::logger_impl`.  `get_date_time k` is the
string the call number `k` of `get_date_time()` returns; the worker calls it
once per line it writes.  A worker blocked in `pthread_cond_wait` stays blocked
until `cond_signal` releases it. -/
def logger_impl_step (get_date_time : Nat → String) (s : Logger) : Option Logger :=
  match s.worker with
  | Pc.absent => some s
  | Pc.waiting => some s
  | Pc.dequeuing =>
    match dequeue s.str s.m_queue with
    | none => none
    | some (status, str, q) =>
      some { s with m_queue := q, str := str,
                    worker := if status then Pc.writing else Pc.checking }
  | Pc.writing =>
    if s.is_open then
      some { s with sink := s.sink ++ [render (get_date_time s.sink.length) s.m_header s.str],
                    worker := Pc.dequeuing }
    else
      some { s with cerr := s.cerr ++ ["ink::Logger::logger_impl: Output stream is not open.\n"],
                    worker := Pc.dequeuing }
  | Pc.checking =>
    if s.m_terminate = false then some { s with worker := Pc.waiting }
    else some { s with m_logger_died := true, worker := Pc.exited }
  | Pc.exited => some s

/-- The loop `while (!m_logger_died) { lock; pthread_cond_signal; unlock; }` of
`stop`, with the worker thread running meanwhile: every round signals and lets
the worker take one step.  Running out of `fuel` is an error. -/
def spin (get_date_time : Nat → String) : Nat → Logger → Option Logger
  | 0, s => if s.m_logger_died = false then none else some s
  | fuel + 1, s =>
    if s.m_logger_died = false then
      match logger_impl_step get_date_time (cond_signal s) with
      | none => none
      | some s1 => spin get_date_time fuel s1
    else some s

/-- The method `Logger::stop()`: set `m_terminate`, signal until the worker has died, join
it and close the stream.  The worker needs at most two steps per queued node
and four more to leave its loop. -/
def stop (get_date_time : Nat → String) (s : Logger) : Option Logger :=
  if s.m_logger_started then
    match spin get_date_time (2 * s.m_queue.heap.length + 4) { s with m_terminate := true } with
    | none => none
    | some s1 => some { s1 with is_open := false }
  else some s

/-- What happens next: the client thread calls `log`, or the worker thread
takes a step. -/
inductive Event where
  | log (level : Int) (message : String)
  | worker
deriving DecidableEq, Repr

/-- Run a schedule of client calls and worker steps. -/
def exec (get_date_time : Nat → String) : List Event → Logger → Option Logger
  | [], s => some s
  | Event.log level message :: es, s =>
    match log level message s with
    | none => none
    | some s1 => exec get_date_time es s1
  | Event.worker :: es, s =>
    match logger_impl_step get_date_time s with
    | none => none
    | some s1 => exec get_date_time es s1

/-- The `log` calls of a schedule, in call order. -/
def logCalls : List Event → List (Int × String)
  | [] => []
  | Event.log level message :: es => (level, message) :: logCalls es
  | Event.worker :: es => logCalls es

/-- The lines the worker writes for the messages `ms`, in order, when `k`
lines were written before. -/
def renderFrom (get_date_time : Nat → String) (header : String) :
    Nat → List String → List String
  | _, [] => []
  | k, m :: ms =>
    render (get_date_time k) header m :: renderFrom get_date_time header (k + 1) ms

/-- The messages `log` admits under ceiling `c`, in call order. -/
def admitted (c : Int) : List (Int × String) → List String
  | [] => []
  | (level, message) :: rest =>
    if level ≤ c then message :: admitted c rest else admitted c rest

/-- A started logger that has not been stopped, after `log` calls that admitted
the messages `adm`: the queue is in canonical form, the stream is open, the
worker is alive, and the lines written, the record the worker holds when it is
about to write, and the unread records make up `adm` in order. -/
def Running (get_date_time : Nat → String) (c : Int) (H : String) (s : Logger)
    (adm : List String) : Prop :=
  ∃ f pre cv un wr,
    s.m_queue = absQueue f pre cv un ∧ s.sink = renderFrom get_date_time H 0 wr ∧
    s.m_header = H ∧ s.m_level = c ∧ s.is_open = true ∧ s.m_terminate = false ∧
    s.m_logger_died = false ∧ s.m_logger_started = true ∧
    ((s.worker = Pc.writing ∧ wr ++ s.str :: un = adm) ∨
     ((s.worker = Pc.waiting ∨ s.worker = Pc.dequeuing ∨ s.worker = Pc.checking) ∧
        wr ++ un = adm))

/-! ## The canonical states simulate the code -/

theorem absHeap_length (f : Nat) (vals : List String) :
    (absHeap f vals).length = f + vals.length := by
  simp [absHeap]

theorem absHeap_getElem? (f : Nat) (vals : List String) (i : Nat) :
    (absHeap f vals)[i]? =
      if i < f + vals.length then
        some (if i < f then none
          else some ⟨vals.getD (i - f) "",
            if i + 1 < f + vals.length then some (i + 1) else none⟩)
      else none := by
  unfold absHeap
  rw [List.getElem?_map]
  by_cases h : i < f + vals.length
  · rw [List.getElem?_range h]; simp [h]
  · rw [List.getElem?_eq_none (by simpa using h)]; simp [h]

theorem deref_absHeap (f : Nat) (vals : List String) (i : Nat) (h : i < vals.length) :
    (absHeap f vals).deref (some (f + i)) =
      some ⟨vals.getD i "", if i + 1 < vals.length then some (f + i + 1) else none⟩ := by
  simp only [Heap.deref, absHeap_getElem?]
  have h1 : f + i < f + vals.length := by omega
  have h2 : ¬ f + i < f := by omega
  simp only [h1, h2, if_true, if_false, Nat.add_sub_cancel_left]
  by_cases h3 : i + 1 < vals.length
  · have : f + i + 1 < f + vals.length := by omega
    simp [h3, this]
  · have : ¬ f + i + 1 < f + vals.length := by omega
    simp [h3, this]

theorem free_absHeap (f : Nat) (v : String) (vs : List String) :
    (absHeap f (v :: vs)).free (some f) = some (absHeap (f + 1) vs) := by
  have hd := deref_absHeap f (v :: vs) 0 (by simp)
  simp only [Nat.add_zero] at hd
  simp only [Heap.free, hd]
  congr 1
  apply List.ext_getElem?
  intro n
  rw [List.getElem?_set, absHeap_getElem?, absHeap_getElem?, absHeap_length]
  simp only [List.length_cons]
  by_cases h1 : f = n
  · subst h1
    simp
    omega
  · simp only [h1, if_false]
    by_cases h2 : n < f
    · have : n < f + 1 := by omega
      have e1 : n < f + (vs.length + 1) := by omega
      have e2 : n < f + 1 + vs.length := by omega
      simp [h2, this, e1, e2]
    · have h3 : ¬ n < f + 1 := by omega
      have h4 : n - f = (n - (f + 1)) + 1 := by omega
      have h5 : f + 1 + vs.length = f + (vs.length + 1) := by omega
      simp only [h2, h3, if_false, h4, List.getD_cons_succ, h5]

theorem link_absHeap (f : Nat) (vals : List String) (t : String) (h : vals ≠ []) :
    Heap.setNext (absHeap f vals ++ [some ⟨t, none⟩]) (some (f + (vals.length - 1)))
        (some (f + vals.length)) = some (absHeap f (vals ++ [t])) := by
  have hl : 0 < vals.length := List.length_pos.mpr h
  have hd : Heap.deref (absHeap f vals ++ [some ⟨t, none⟩]) (some (f + (vals.length - 1)))
      = some ⟨vals.getD (vals.length - 1) "", none⟩ := by
    have := deref_absHeap f vals (vals.length - 1) (by omega)
    simp only [Heap.deref] at this ⊢
    rw [List.getElem?_append_left (by rw [absHeap_length]; omega)]
    rw [this]
    simp
    omega
  simp only [Heap.setNext, hd]
  congr 1
  apply List.ext_getElem?
  intro n
  rw [List.getElem?_set, absHeap_getElem?]
  simp only [List.length_append, List.length_singleton, absHeap_length]
  by_cases h1 : f + (vals.length - 1) = n
  · subst h1
    have e1 : f + (vals.length - 1) < f + vals.length + 1 := by omega
    have e2 : f + (vals.length - 1) < f + (vals.length + 1) := by omega
    have e3 : ¬ f + (vals.length - 1) < f := by omega
    have e4 : f + (vals.length - 1) + 1 < f + (vals.length + 1) := by omega
    have e5 : f + (vals.length - 1) + 1 = f + vals.length := by omega
    have e6 : f + vals.length < f + (vals.length + 1) := by omega
    simp only [e1, e2, e3, e4, e5, e6, if_true, if_false, Nat.add_sub_cancel_left]
    rw [List.getD_append _ _ _ _ (by omega)]
  · simp only [h1, if_false]
    rw [List.getElem?_append, absHeap_length, absHeap_getElem?]
    by_cases h2 : n < f + vals.length
    · have e2 : n < f + (vals.length + 1) := by omega
      have e4 : n + 1 < f + (vals.length + 1) := by omega
      have e5 : n + 1 < f + vals.length := by omega
      simp only [h2, e2, e4, e5, if_true]
      by_cases h3 : n < f
      · simp [h3]
      · simp only [h3, if_false]
        rw [List.getD_append _ _ _ _ (by omega)]
    · by_cases h3 : n = f + vals.length
      · subst h3
        have e7 : ¬ f + vals.length + 1 < f + (vals.length + 1) := by omega
        simp [List.getD_eq_getElem?_getD, e7]
      · have e2 : ¬ n < f + (vals.length + 1) := by omega
        simp only [h2, e2, if_false]
        rw [List.getElem?_eq_none]
        simp; omega

theorem absQueue_new : Queue.new = absQueue 0 [] "" [] := by
  rfl

theorem reclaim_absQueue (c : String) (un : List String) :
    ∀ (pre : List String) (f fuel : Nat), pre.length ≤ fuel →
      reclaim fuel (absQueue f pre c un) = some (absQueue (f + pre.length) [] c un) := by
  intro pre
  induction pre with
  | nil =>
    intro f fuel _
    cases fuel <;> simp [reclaim, absQueue]
  | cons p ps ih =>
    intro f fuel hfuel
    cases fuel with
    | zero => simp at hfuel
    | succ fuel =>
      have hne : (some f : Ptr) ≠ some (f + (p :: ps).length) := by
        simp
      have hd := deref_absHeap f ((p :: ps) ++ c :: un) 0 (by simp)
      have hf := free_absHeap f p (ps ++ c :: un)
      simp only [Nat.add_zero, List.cons_append] at hd
      have hlen : 0 + 1 < (p :: (ps ++ c :: un)).length := by simp
      rw [if_pos hlen] at hd
      have hq : ({ absQueue f (p :: ps) c un with
            heap := absHeap (f + 1) (ps ++ c :: un), first := some (f + 1) } : Queue)
          = absQueue (f + 1) ps c un := by
        simp only [absQueue, List.length_cons]
        congr 2 <;> omega
      have := ih (f + 1) fuel (by simpa using hfuel)
      rw [reclaim]
      simp only [absQueue, List.cons_append] at hne hq this ⊢
      rw [if_pos hne]
      simp only [hd, hf]
      rw [hq, this]
      simp only [List.length_cons]
      congr 3 <;> omega

theorem enqueue_absQueue (f : Nat) (pre : List String) (c : String) (un : List String)
    (t : String) :
    enqueue t (absQueue f pre c un) = some (absQueue (f + pre.length) [] c (un ++ [t])) := by
  have hne : pre ++ c :: un ≠ [] := by simp
  have hlen : (pre ++ c :: un).length - 1 = pre.length + un.length := by simp
  have hlink := link_absHeap f (pre ++ c :: un) t hne
  rw [hlen, ← Nat.add_assoc] at hlink
  have hd := deref_absHeap f ((pre ++ c :: un) ++ [t]) (pre.length + un.length)
    (by simp; omega)
  rw [← Nat.add_assoc, if_pos (by simp; omega)] at hd
  have hq : ({ absQueue f pre c un with
        heap := absHeap f ((pre ++ c :: un) ++ [t]),
        last := some (f + pre.length + un.length + 1) } : Queue)
      = absQueue f pre c (un ++ [t]) := by
    simp [absQueue, Nat.add_assoc]
  have hr := reclaim_absQueue c (un ++ [t]) pre f
    (f + ((pre ++ c :: un) ++ [t]).length) (by simp; omega)
  unfold enqueue
  simp only [absQueue] at hlink hq hr ⊢
  simp only [Heap.alloc, absHeap_length]
  simp only [hlink, hd, absHeap_length]
  rw [hq, hr]

theorem dequeue_absQueue_nil (f : Nat) (pre : List String) (c : String) (r : String) :
    dequeue r (absQueue f pre c []) = some (false, r, absQueue f pre c []) := by
  simp [dequeue, absQueue]

theorem dequeue_absQueue_cons (f : Nat) (pre : List String) (c x : String)
    (un : List String) (r : String) :
    dequeue r (absQueue f pre c (x :: un)) = some (true, x, absQueue f (pre ++ [c]) x un) := by
  have hne : (some (f + pre.length) : Ptr) ≠ some (f + pre.length + (x :: un).length) := by
    simp
  have hd := deref_absHeap f (pre ++ c :: x :: un) pre.length (by simp)
  rw [if_pos (by simp)] at hd
  have hd2 := deref_absHeap f (pre ++ c :: x :: un) (pre.length + 1) (by simp)
  rw [← Nat.add_assoc] at hd2
  have hv : (pre ++ c :: x :: un).getD (pre.length + 1) "" = x := by
    rw [List.getD_eq_getElem?_getD, List.getElem?_append_right (by omega)]
    simp
  unfold dequeue
  simp only [absQueue] at hne ⊢
  rw [if_pos hne]
  simp only [hd, hd2, hv]
  simp only [List.length_cons, List.append_assoc, List.singleton_append, List.length_append,
    List.length_singleton]
  congr 4
  simp [Queue.mk.injEq]
  omega

theorem contains_one_absQueue (f : Nat) (pre : List String) (c : String) (un : List String) :
    contains_one (absQueue f pre c un) = some (decide (pre.length + un.length = 1)) := by
  have hd := deref_absHeap f (pre ++ c :: un) 0 (by simp)
  simp only [Nat.add_zero] at hd
  unfold contains_one
  simp only [absQueue, hd]
  by_cases h : 0 + 1 < (pre ++ c :: un).length
  · rw [if_pos h]
    simp at h ⊢
    omega
  · rw [if_neg h]
    simp at h ⊢
    omega

theorem chain_absHeap (f : Nat) (vals : List String) :
    ∀ (fuel i : Nat), i ≤ vals.length → vals.length ≤ fuel + i →
      chain (absHeap f vals) fuel (if i < vals.length then some (f + i) else none)
        = some ((vals.drop i).enumFrom (f + i)) := by
  intro fuel
  induction fuel with
  | zero =>
    intro i h1 h2
    have : i = vals.length := by omega
    subst this
    simp [chain]
  | succ fuel ih =>
    intro i h1 h2
    by_cases h : i < vals.length
    · rw [if_pos h]
      have hd := deref_absHeap f vals i h
      have := ih (i + 1) (by omega) (by omega)
      rw [← Nat.add_assoc] at this
      rw [chain]
      simp only [hd, this]
      rw [List.drop_eq_getElem_cons h]
      simp [List.enumFrom, List.getD_eq_getElem?_getD, List.getElem?_eq_getElem h]
    · have : i = vals.length := by omega
      subst this
      simp [chain]


theorem chain_absQueue_first (f : Nat) (pre : List String) (c : String) (un : List String) :
    chain (absQueue f pre c un).heap (absQueue f pre c un).heap.length (absQueue f pre c un).first
      = some ((pre ++ c :: un).enumFrom f) := by
  have h := chain_absHeap f (pre ++ c :: un) (f + (pre ++ c :: un).length) 0
    (by omega) (by omega)
  rw [if_pos (by simp)] at h
  simpa [absQueue, absHeap_length] using h

theorem chain_absQueue_divider (f : Nat) (pre : List String) (c : String) (un : List String) :
    chain (absQueue f pre c un).heap (absQueue f pre c un).heap.length
        (absQueue f pre c un).divider
      = some ((c :: un).enumFrom (f + pre.length)) := by
  have h := chain_absHeap f (pre ++ c :: un) (f + (pre ++ c :: un).length) pre.length
    (by simp) (by omega)
  rw [if_pos (by simp)] at h
  simpa [absQueue, absHeap_length] using h

theorem nodeCount_absQueue (f : Nat) (pre : List String) (c : String) (un : List String) :
    nodeCount (absQueue f pre c un) = some (pre.length + 1 + un.length) := by
  unfold nodeCount
  rw [chain_absQueue_first]
  simp
  omega

theorem unread_absQueue (f : Nat) (pre : List String) (c : String) (un : List String) :
    unread (absQueue f pre c un) = some un := by
  unfold unread
  rw [chain_absQueue_divider]
  simp [List.enumFrom]

theorem takeWhile_enumFrom (d : Nat) (rest : List String) :
    ∀ (pre : List String) (f : Nat), f + pre.length = d →
      ((pre ++ rest).enumFrom f).takeWhile (fun c => decide (some c.1 ≠ (some d : Ptr)))
        = pre.enumFrom f := by
  intro pre
  induction pre with
  | nil =>
    intro f hf
    cases rest with
    | nil => simp
    | cons r rs =>
      simp only [List.nil_append, List.enumFrom, List.length_nil, Nat.add_zero] at hf ⊢
      subst hf
      simp
  | cons p ps ih =>
    intro f hf
    simp only [List.cons_append, List.enumFrom, List.length_cons] at hf ⊢
    have hne : f ≠ d := by omega
    rw [List.takeWhile_cons]
    simpa [hne] using ih (f + 1) (by omega)

theorem retired_absQueue (f : Nat) (pre : List String) (c : String) (un : List String) :
    retired (absQueue f pre c un) = some (pre.enumFrom f) := by
  unfold retired
  rw [chain_absQueue_first]
  simp only [Option.map_some', absQueue]
  rw [takeWhile_enumFrom (f + pre.length) (c :: un) pre f rfl]

theorem getLastD_enumFrom :
    ∀ (un : List String) (a : Nat) (c : String) (d : Nat × String),
      (((a, c) :: un.enumFrom (a + 1)).getLastD d).1 = a + un.length := by
  intro un
  induction un with
  | nil => intro a c d; simp
  | cons u us ih =>
    intro a c d
    rw [List.getLastD_cons]
    simp only [List.enumFrom, List.length_cons]
    rw [ih (a + 1) u (a, c)]
    omega

theorem cursorInv_absQueue (f : Nat) (pre : List String) (c : String) (un : List String) :
    CursorInv (absQueue f pre c un) un := by
  refine ⟨pre.enumFrom f, (f + pre.length, c), un.enumFrom (f + pre.length + 1), ?_, ?_, ?_,
    ?_, ?_, ?_, ?_⟩
  · rw [chain_absQueue_first, List.enumFrom_append]
    simp [List.enumFrom]
  · cases pre <;> simp [absQueue, List.enumFrom]
  · simp [absQueue]
  · simp only [absQueue]
    rw [getLastD_enumFrom]
  · have hd := deref_absHeap f (pre ++ c :: un) (pre.length + un.length) (by simp)
    rw [if_neg (by simp; omega)] at hd
    simp only [absQueue]
    rw [← Nat.add_assoc] at hd
    rw [hd]
    rfl
  · have : (List.enumFrom f pre ++ (f + pre.length, c) :: List.enumFrom (f + pre.length + 1) un)
        = (pre ++ c :: un).enumFrom f := by
      rw [List.enumFrom_append]; simp [List.enumFrom]
    rw [this, List.enumFrom_map_fst]
    exact List.nodup_range' _ _
  · exact List.enumFrom_map_snd _ _

/-- Every call sequence, started in a canonical state, runs to the end without
a memory error, produces the outputs of the FIFO, and ends in a canonical state
whose unread records are the pending messages of the FIFO. -/
theorem run_absQueue :
    ∀ (ops : List Op) (f : Nat) (pre : List String) (c : String) (un : List String),
      ∃ f1 pre1 c1, run ops (absQueue f pre c un)
        = some ((fifo ops un).1, absQueue f1 pre1 c1 (fifo ops un).2) := by
  intro ops
  induction ops with
  | nil => intro f pre c un; exact ⟨f, pre, c, rfl⟩
  | cons op ops ih =>
    intro f pre c un
    cases op with
    | enq t =>
      obtain ⟨f1, pre1, c1, h⟩ := ih (f + pre.length) [] c (un ++ [t])
      exact ⟨f1, pre1, c1, by simp only [run, enqueue_absQueue, fifo, h]⟩
    | deq =>
      cases un with
      | nil =>
        obtain ⟨f1, pre1, c1, h⟩ := ih f pre c []
        exact ⟨f1, pre1, c1, by simp [run, dequeue_absQueue_nil, fifo, h]⟩
      | cons x un =>
        obtain ⟨f1, pre1, c1, h⟩ := ih f (pre ++ [c]) x un
        exact ⟨f1, pre1, c1, by simp [run, dequeue_absQueue_cons, fifo, h]⟩

theorem fifo_spec :
    ∀ (ops : List Op) (p : List String),
      delivered (fifo ops p).1 ++ (fifo ops p).2 = p ++ enqueued ops := by
  intro ops
  induction ops with
  | nil => intro p; simp [fifo, delivered, enqueued]
  | cons op ops ih =>
    intro p
    cases op with
    | enq t =>
      have := ih (p ++ [t])
      simpa [fifo, enqueued] using this
    | deq =>
      cases p with
      | nil =>
        have := ih []
        simpa [fifo, enqueued, delivered] using this
      | cons m p =>
        have := ih p
        simpa [fifo, enqueued, delivered] using this

theorem fifo_enqs (ops : List Op) :
    ∀ (ms p : List String), fifo (ms.map Op.enq ++ ops) p = fifo ops (p ++ ms) := by
  intro ms
  induction ms with
  | nil => intro p; simp
  | cons m ms ih =>
    intro p
    have := ih (p ++ [m])
    simpa [fifo] using this

theorem fifo_deqs :
    ∀ (p : List String),
      fifo (List.replicate (p.length + 1) Op.deq) p = (p.map some ++ [none], []) := by
  intro p
  induction p with
  | nil => simp [List.replicate, fifo]
  | cons m p ih =>
    simp only [List.length_cons, List.replicate_succ, fifo] at ih ⊢
    rw [ih]
    simp

/-- Every call sequence on a fresh queue runs to the end without a memory
error and ends in a canonical state; the delivered messages followed by the
unread ones are the enqueued messages. -/
theorem reach (ops : List Op) :
    ∃ outs f pre c un, run ops Queue.new = some (outs, absQueue f pre c un) ∧
      outs = (fifo ops []).1 ∧ delivered outs ++ un = enqueued ops := by
  obtain ⟨f1, pre1, c1, h⟩ := run_absQueue ops 0 [] "" []
  refine ⟨(fifo ops []).1, f1, pre1, c1, (fifo ops []).2, ?_, rfl, ?_⟩
  · rw [absQueue_new]; exact h
  · simpa using fifo_spec ops []


theorem run_append (a b : List Op) :
    ∀ (q : Queue), run (a ++ b) q =
      (run a q).bind fun r => (run b r.2).map fun r2 => (r.1 ++ r2.1, r2.2) := by
  induction a with
  | nil =>
    intro q
    simp only [List.nil_append, run, Option.some_bind]
    cases run b q <;> simp
  | cons op a ih =>
    intro q
    cases op with
    | enq t =>
      simp only [List.cons_append, run]
      cases enqueue t q with
      | none => rfl
      | some q1 => exact ih q1
    | deq =>
      simp only [List.cons_append, run]
      cases dequeue "" q with
      | none => rfl
      | some r =>
        obtain ⟨b1, res, q1⟩ := r
        simp only [List.append_eq, ih q1]
        cases run a q1 with
        | none => rfl
        | some r1 =>
          obtain ⟨o1, q2⟩ := r1
          simp only [Option.some_bind]
          cases run b q2 with
          | none => rfl
          | some r2 => rfl

theorem run_enqs (c : String) :
    ∀ (ms : List String) (f : Nat) (pre un : List String),
      ms ≠ [] ∨ pre = [] →
      run (ms.map Op.enq) (absQueue f pre c un)
        = some ([], absQueue (f + pre.length) [] c (un ++ ms)) := by
  intro ms
  induction ms with
  | nil =>
    intro f pre un h
    rcases h with h | h
    · exact absurd rfl h
    · subst h; simp [run]
  | cons m ms ih =>
    intro f pre un _
    simp only [List.map_cons, run, enqueue_absQueue]
    rw [ih (f + pre.length) [] (un ++ [m]) (Or.inr rfl)]
    simp

theorem run_deqs :
    ∀ (un : List String) (f : Nat) (pre : List String) (c : String),
      ∃ pre1 c1, run (List.replicate un.length Op.deq) (absQueue f pre c un)
          = some (un.map some, absQueue f pre1 c1 []) ∧
        pre1.length = pre.length + un.length := by
  intro un
  induction un with
  | nil => intro f pre c; exact ⟨pre, c, by simp [run], by simp⟩
  | cons x un ih =>
    intro f pre c
    obtain ⟨pre1, c1, h, hl⟩ := ih f (pre ++ [c]) x
    refine ⟨pre1, c1, ?_, ?_⟩
    · simp only [List.length_cons, List.replicate_succ, run, dequeue_absQueue_cons, h]
      simp
    · rw [hl]; simp; omega

theorem run_cycleOps (ms : List String) (f : Nat) (pre : List String) (c : String)
    (h : ms ≠ [] ∨ pre.length = ms.length) :
    ∃ f1 pre1 c1, run (cycleOps ms) (absQueue f pre c [])
        = some (ms.map some, absQueue f1 pre1 c1 []) ∧ pre1.length = ms.length := by
  by_cases hms : ms = []
  · subst hms
    refine ⟨f, pre, c, by simp [cycleOps, run], ?_⟩
    rcases h with h | h
    · exact absurd rfl h
    · exact h
  · obtain ⟨pre1, c1, hd, hl⟩ := run_deqs ms (f + pre.length) [] c
    refine ⟨f + pre.length, pre1, c1, ?_, by simpa using hl⟩
    rw [cycleOps, run_append, run_enqs c ms f pre [] (Or.inl hms)]
    simp only [List.nil_append, Option.some_bind, hd]
    simp

theorem run_cycles (ms : List String) :
    ∀ (k : Nat) (f : Nat) (pre : List String) (c : String),
      ms ≠ [] ∨ pre.length = ms.length →
      ∃ outs f1 pre1 c1, run (cycles ms (k + 1)) (absQueue f pre c [])
          = some (outs, absQueue f1 pre1 c1 []) ∧ pre1.length = ms.length := by
  intro k
  induction k with
  | zero =>
    intro f pre c h
    obtain ⟨f1, pre1, c1, hr, hl⟩ := run_cycleOps ms f pre c h
    exact ⟨_, f1, pre1, c1, by simpa [cycles] using hr, hl⟩
  | succ k ih =>
    intro f pre c h
    obtain ⟨f1, pre1, c1, hr, hl⟩ := run_cycleOps ms f pre c h
    obtain ⟨outs, f2, pre2, c2, hr2, hl2⟩ := ih f1 pre1 c1 (Or.inr hl)
    refine ⟨ms.map some ++ outs, f2, pre2, c2, ?_, hl2⟩
    rw [cycles, run_append, hr]
    simp only [Option.some_bind, hr2]
    simp

theorem deref_absQueue_divider (f : Nat) (pre : List String) (c x : String)
    (un : List String) :
    ∃ d n, (absQueue f pre c (x :: un)).heap.deref (absQueue f pre c (x :: un)).divider
        = some d ∧ (absQueue f pre c (x :: un)).heap.deref d.next = some n := by
  have hd := deref_absHeap f (pre ++ c :: x :: un) pre.length (by simp)
  rw [if_pos (by simp)] at hd
  have hd2 := deref_absHeap f (pre ++ c :: x :: un) (pre.length + 1) (by simp)
  rw [← Nat.add_assoc] at hd2
  exact ⟨_, _, hd, hd2⟩


theorem enqueue_eq_steps (t : String) (q : Queue) :
    enqueue t q =
      (enqueue_link t q).bind fun q1 => (enqueue_publish q1).bind enqueue_reclaim := by
  unfold enqueue enqueue_link enqueue_publish enqueue_reclaim
  cases h : (q.heap.alloc t).1.setNext q.last (q.heap.alloc t).2 with
  | none => simp [h]
  | some hp =>
    simp only [h, Option.some_bind]
    cases h2 : hp.deref q.last with
    | none => simp [h2]
    | some nd => simp [h2]

theorem logger_impl_step_terminate (get_date_time : Nat → String) (s s1 : Logger)
    (h : logger_impl_step get_date_time s = some s1) : s1.m_terminate = s.m_terminate := by
  unfold logger_impl_step at h
  split at h
  · cases h; rfl
  · cases h; rfl
  · split at h
    · cases h
    · cases h; rfl
  · split at h <;> (cases h; rfl)
  · split at h <;> (cases h; rfl)
  · cases h; rfl

theorem spin_terminate (get_date_time : Nat → String) :
    ∀ (fuel : Nat) (s s1 : Logger), spin get_date_time fuel s = some s1 →
      s1.m_terminate = s.m_terminate := by
  intro fuel
  induction fuel with
  | zero =>
    intro s s1 h
    unfold spin at h
    split at h
    · cases h
    · cases h; rfl
  | succ fuel ih =>
    intro s s1 h
    unfold spin at h
    split at h
    · cases h2 : logger_impl_step get_date_time (cond_signal s) with
      | none => rw [h2] at h; cases h
      | some s2 =>
        rw [h2] at h
        rw [ih s2 s1 h, logger_impl_step_terminate get_date_time _ _ h2]
        rfl
    · cases h; rfl

theorem log_absQueue (s : Logger) (level : Int) (message : String)
    (f : Nat) (pre : List String) (c : String) (un : List String) :
    log level message { s with m_queue := absQueue f pre c un } =
      some (if level ≤ s.m_level ∧ s.m_terminate = false then
        (if un = [] then
          cond_signal { s with m_queue := absQueue (f + pre.length) [] c (un ++ [message]) }
        else { s with m_queue := absQueue (f + pre.length) [] c (un ++ [message]) })
      else { s with m_queue := absQueue f pre c un }) := by
  unfold log
  by_cases h : level ≤ s.m_level ∧ s.m_terminate = false
  · simp only [h, and_self, if_true, enqueue_absQueue, contains_one_absQueue]
    cases un <;> simp
  · rw [if_neg h, if_neg h]

/-! ## The logger under schedules of client calls and worker steps -/

theorem renderFrom_append (g : Nat → String) (H : String) :
    ∀ (a b : List String) (k : Nat),
      renderFrom g H k (a ++ b) = renderFrom g H k a ++ renderFrom g H (k + a.length) b := by
  intro a
  induction a with
  | nil => intro b k; simp [renderFrom]
  | cons x a ih =>
    intro b k
    have e := ih b (k + 1)
    rw [show k + 1 + a.length = k + (a.length + 1) by omega] at e
    simp only [List.cons_append, renderFrom, List.length_cons, List.append_eq, e]

theorem renderFrom_length (g : Nat → String) (H : String) :
    ∀ (a : List String) (k : Nat), (renderFrom g H k a).length = a.length := by
  intro a
  induction a with
  | nil => intro k; rfl
  | cons x a ih => intro k; simp [renderFrom, ih]

theorem running_log (g : Nat → String) (c : Int) (H : String) (s : Logger)
    (adm : List String) (level : Int) (message : String) (h : Running g c H s adm) :
    ∃ s1, log level message s = some s1 ∧
      Running g c H s1 (adm ++ admitted c [(level, message)]) := by
  obtain ⟨f, pre, cv, un, wr, hq, hsink, hH, hc, ho, ht, hd, hst, hw⟩ := h
  have hs : s = { s with m_queue := absQueue f pre cv un } := by
    cases s; simp_all
  rw [hs, log_absQueue]
  refine ⟨_, rfl, ?_⟩
  by_cases hl : level ≤ c
  · have hl2 : level ≤ s.m_level ∧ s.m_terminate = false := ⟨by rw [hc]; exact hl, ht⟩
    have ha : admitted c [(level, message)] = [message] := by simp [admitted, hl]
    rw [if_pos hl2, ha]
    by_cases hu : un = []
    · rw [if_pos hu]
      subst hu
      refine ⟨_, _, _, _, wr, rfl, hsink, hH, hc, ho, ht, hd, hst, ?_⟩
      rcases hw with ⟨hw1, hw2⟩ | ⟨hw1, hw2⟩
      · left
        refine ⟨by simp [cond_signal, hw1], ?_⟩
        rw [← hw2]; simp [cond_signal]
      · right
        refine ⟨?_, ?_⟩
        · rcases hw1 with h1 | h1 | h1 <;> simp [cond_signal, h1]
        · rw [← hw2]; simp
    · rw [if_neg hu]
      refine ⟨_, _, _, _, wr, rfl, hsink, hH, hc, ho, ht, hd, hst, ?_⟩
      rcases hw with ⟨hw1, hw2⟩ | ⟨hw1, hw2⟩
      · left
        refine ⟨hw1, ?_⟩
        rw [← hw2]; simp
      · right
        refine ⟨hw1, ?_⟩
        rw [← hw2]; simp
  · have hl2 : ¬ (level ≤ s.m_level ∧ s.m_terminate = false) := by
      rw [hc]; exact fun h2 => hl h2.1
    have ha : admitted c [(level, message)] = [] := by simp [admitted, hl]
    rw [if_neg hl2, ha, List.append_nil]
    exact ⟨f, pre, cv, un, wr, rfl, hsink, hH, hc, ho, ht, hd, hst, hw⟩

theorem running_worker (g : Nat → String) (c : Int) (H : String) (s : Logger)
    (adm : List String) (h : Running g c H s adm) :
    ∃ s1, logger_impl_step g s = some s1 ∧ Running g c H s1 adm := by
  obtain ⟨f, pre, cv, un, wr, hq, hsink, hH, hc, ho, ht, hd, hst, hw⟩ := h
  rcases hw with ⟨hw1, hw2⟩ | ⟨hw1 | hw1 | hw1, hw2⟩
  · -- writing
    have hstep : logger_impl_step g s = some { s with
        sink := s.sink ++ [render (g s.sink.length) s.m_header s.str],
        worker := Pc.dequeuing } := by
      unfold logger_impl_step
      rw [hw1]
      simp only
      rw [if_pos ho]
    refine ⟨_, hstep, f, pre, cv, un, wr ++ [s.str], hq, ?_, hH, hc, ho, ht, hd, hst,
      Or.inr ⟨Or.inr (Or.inl rfl), ?_⟩⟩
    · show s.sink ++ [render (g s.sink.length) s.m_header s.str] = _
      rw [hsink, hH, renderFrom_append, renderFrom_length]
      simp [renderFrom]
    · rw [← hw2]; simp
  · -- waiting
    have hstep : logger_impl_step g s = some s := by
      unfold logger_impl_step
      rw [hw1]
    exact ⟨s, hstep,
      f, pre, cv, un, wr, hq, hsink, hH, hc, ho, ht, hd, hst, Or.inr ⟨Or.inl hw1, hw2⟩⟩
  · -- dequeuing
    cases un with
    | nil =>
      have hstep : logger_impl_step g s = some { s with
          m_queue := absQueue f pre cv [], str := s.str, worker := Pc.checking } := by
        unfold logger_impl_step
        rw [hw1]
        simp only [hq, dequeue_absQueue_nil]
        rfl
      exact ⟨_, hstep, f, pre, cv, [], wr, rfl, hsink, hH, hc, ho, ht, hd, hst,
        Or.inr ⟨Or.inr (Or.inr rfl), hw2⟩⟩
    | cons x un =>
      have hstep : logger_impl_step g s = some { s with
          m_queue := absQueue f (pre ++ [cv]) x un, str := x, worker := Pc.writing } := by
        unfold logger_impl_step
        rw [hw1]
        simp only [hq, dequeue_absQueue_cons]
        rfl
      exact ⟨_, hstep, f, pre ++ [cv], x, un, wr, rfl, hsink, hH, hc, ho, ht, hd, hst,
        Or.inl ⟨rfl, hw2⟩⟩
  · -- checking
    have hstep : logger_impl_step g s = some { s with worker := Pc.waiting } := by
      unfold logger_impl_step
      rw [hw1]
      simp only
      rw [if_pos ht]
    exact ⟨_, hstep, f, pre, cv, un, wr, hq, hsink, hH, hc, ho, ht, hd, hst,
      Or.inr ⟨Or.inl rfl, hw2⟩⟩

theorem admitted_cons (c : Int) (lm : Int × String) (rest : List (Int × String)) :
    admitted c (lm :: rest) = admitted c [lm] ++ admitted c rest := by
  obtain ⟨l, m⟩ := lm
  by_cases h : l ≤ c <;> simp [admitted, h]

theorem exec_running (g : Nat → String) (c : Int) (H : String) :
    ∀ (events : List Event) (s : Logger) (adm : List String), Running g c H s adm →
      ∃ s1, exec g events s = some s1 ∧
        Running g c H s1 (adm ++ admitted c (logCalls events)) := by
  intro events
  induction events with
  | nil => intro s adm h; exact ⟨s, rfl, by simpa [logCalls, admitted] using h⟩
  | cons e es ih =>
    intro s adm h
    cases e with
    | log level message =>
      obtain ⟨s1, h1, hr1⟩ := running_log g c H s adm level message h
      obtain ⟨s2, h2, hr2⟩ := ih s1 _ hr1
      refine ⟨s2, by simp only [exec, h1, h2], ?_⟩
      rw [logCalls, admitted_cons, ← List.append_assoc]
      exact hr2
    | worker =>
      obtain ⟨s1, h1, hr1⟩ := running_worker g c H s adm h
      obtain ⟨s2, h2, hr2⟩ := ih s1 _ hr1
      exact ⟨s2, by simp only [exec, h1, h2], by simpa [logCalls] using hr2⟩

theorem spin_round (g : Nat → String) (fuel : Nat) (s s2 : Logger)
    (hd : s.m_logger_died = false) (hstep : logger_impl_step g (cond_signal s) = some s2) :
    spin g (fuel + 1) s = spin g fuel s2 := by
  rw [spin, if_pos hd, hstep]

theorem spin_died (g : Nat → String) (fuel : Nat) (s : Logger)
    (hd : s.m_logger_died = true) : spin g fuel s = some s := by
  cases fuel <;> simp [spin, hd]

theorem spin_check (g : Nat → String) (fuel : Nat) (s : Logger)
    (hw : s.worker = Pc.checking) (ht : s.m_terminate = true) (hd : s.m_logger_died = false) :
    ∃ s1, spin g (fuel + 1) s = some s1 ∧ s1.sink = s.sink ∧ s1.m_queue = s.m_queue ∧
      s1.m_logger_died = true ∧ s1.m_terminate = true := by
  have hstep : logger_impl_step g (cond_signal s) = some { cond_signal s with
      m_logger_died := true, worker := Pc.exited } := by
    unfold logger_impl_step
    simp only [cond_signal, hw]
    simp [ht]
  rw [spin_round g fuel s _ hd hstep, spin_died g fuel _ rfl]
  exact ⟨_, rfl, rfl, rfl, rfl, ht⟩

theorem round_dequeue_nil (g : Nat → String) (fuel : Nat) (s : Logger) (f : Nat)
    (pre : List String) (cv : String)
    (hw : s.worker = Pc.waiting ∨ s.worker = Pc.dequeuing)
    (hq : s.m_queue = absQueue f pre cv []) (hd : s.m_logger_died = false) :
    ∃ s2, spin g (fuel + 1) s = spin g fuel s2 ∧ s2.worker = Pc.checking ∧
      s2.m_queue = s.m_queue ∧ s2.sink = s.sink ∧ s2.m_terminate = s.m_terminate ∧
      s2.m_logger_died = false ∧ s2.is_open = s.is_open ∧ s2.m_header = s.m_header := by
  have hw2 : (cond_signal s).worker = Pc.dequeuing := by
    rcases hw with h | h <;> simp [cond_signal, h]
  have hstep : logger_impl_step g (cond_signal s) = some { cond_signal s with
      m_queue := absQueue f pre cv [], str := s.str, worker := Pc.checking } := by
    unfold logger_impl_step
    rw [hw2]
    simp only [cond_signal, hq, dequeue_absQueue_nil]
    rfl
  exact ⟨_, spin_round g fuel s _ hd hstep, rfl, hq.symm, rfl, rfl, hd, rfl, rfl⟩

theorem round_dequeue_cons (g : Nat → String) (fuel : Nat) (s : Logger) (f : Nat)
    (pre : List String) (cv x : String) (un : List String)
    (hw : s.worker = Pc.waiting ∨ s.worker = Pc.dequeuing)
    (hq : s.m_queue = absQueue f pre cv (x :: un)) (hd : s.m_logger_died = false) :
    ∃ s2, spin g (fuel + 1) s = spin g fuel s2 ∧ s2.worker = Pc.writing ∧ s2.str = x ∧
      s2.m_queue = absQueue f (pre ++ [cv]) x un ∧ s2.sink = s.sink ∧
      s2.m_terminate = s.m_terminate ∧
      s2.m_logger_died = false ∧ s2.is_open = s.is_open ∧ s2.m_header = s.m_header := by
  have hw2 : (cond_signal s).worker = Pc.dequeuing := by
    rcases hw with h | h <;> simp [cond_signal, h]
  have hstep : logger_impl_step g (cond_signal s) = some { cond_signal s with
      m_queue := absQueue f (pre ++ [cv]) x un, str := x, worker := Pc.writing } := by
    unfold logger_impl_step
    rw [hw2]
    simp only [cond_signal, hq, dequeue_absQueue_cons]
    rfl
  exact ⟨_, spin_round g fuel s _ hd hstep, rfl, rfl, rfl, rfl, rfl, hd, rfl, rfl⟩

theorem round_write (g : Nat → String) (fuel : Nat) (s : Logger)
    (hw : s.worker = Pc.writing) (ho : s.is_open = true) (hd : s.m_logger_died = false) :
    ∃ s2, spin g (fuel + 1) s = spin g fuel s2 ∧ s2.worker = Pc.dequeuing ∧
      s2.sink = s.sink ++ [render (g s.sink.length) s.m_header s.str] ∧
      s2.m_queue = s.m_queue ∧ s2.m_terminate = s.m_terminate ∧
      s2.m_logger_died = false ∧ s2.is_open = true ∧ s2.m_header = s.m_header := by
  have hw2 : (cond_signal s).worker = Pc.writing := by
    simp [cond_signal, hw]
  have ho2 : (cond_signal s).is_open = true := ho
  have hstep : logger_impl_step g (cond_signal s) = some { cond_signal s with
      sink := (cond_signal s).sink ++
        [render (g (cond_signal s).sink.length) (cond_signal s).m_header (cond_signal s).str],
      worker := Pc.dequeuing } := by
    unfold logger_impl_step
    rw [hw2]
    simp only
    rw [if_pos ho2]
  exact ⟨_, spin_round g fuel s _ hd hstep, rfl, rfl, rfl, rfl, hd, ho, rfl⟩

theorem spin_drain (g : Nat → String) (H : String) :
    ∀ (un : List String) (fuel : Nat) (s : Logger) (f : Nat) (pre : List String)
      (cv : String) (wr : List String),
      s.m_queue = absQueue f pre cv un →
      (s.worker = Pc.waiting ∨ s.worker = Pc.dequeuing) →
      s.m_terminate = true → s.m_logger_died = false → s.is_open = true →
      s.sink = renderFrom g H 0 wr → s.m_header = H → 2 * un.length + 2 ≤ fuel →
      ∃ s1 f1 pre1 c1, spin g fuel s = some s1 ∧
        s1.sink = renderFrom g H 0 (wr ++ un) ∧ s1.m_queue = absQueue f1 pre1 c1 [] ∧
        s1.m_logger_died = true ∧ s1.m_terminate = true := by
  intro un
  induction un with
  | nil =>
    intro fuel s f pre cv wr hq hw ht hd ho hsink hH hfuel
    obtain ⟨fuel, rfl⟩ : ∃ k, fuel = k + 2 := ⟨fuel - 2, by simp at hfuel; omega⟩
    obtain ⟨s2, e2, hw2, hq2, hs2, ht2, hd2, _, _⟩ :=
      round_dequeue_nil g (fuel + 1) s f pre cv hw hq hd
    obtain ⟨s1, h1, h2, h3, h4, h5⟩ := spin_check g fuel s2 hw2 (ht2.trans ht) hd2
    refine ⟨s1, f, pre, cv, e2.trans h1, ?_, ?_, h4, h5⟩
    · rw [h2, hs2, List.append_nil]; exact hsink
    · rw [h3, hq2]; exact hq
  | cons x un ih =>
    intro fuel s f pre cv wr hq hw ht hd ho hsink hH hfuel
    obtain ⟨fuel, rfl⟩ : ∃ k, fuel = k + 2 := ⟨fuel - 2, by simp at hfuel; omega⟩
    obtain ⟨s2, e2, hw2, hstr2, hq2, hs2, ht2, hd2, ho2, hH2⟩ :=
      round_dequeue_cons g (fuel + 1) s f pre cv x un hw hq hd
    obtain ⟨s3, e3, hw3, hs3, hq3, ht3, hd3, ho3, hH3⟩ :=
      round_write g fuel s2 hw2 (ho2.trans ho) hd2
    have hsink3 : s3.sink = renderFrom g H 0 (wr ++ [x]) := by
      rw [hs3, hs2, hH2, hstr2, hsink, hH, renderFrom_append, renderFrom_length]
      simp [renderFrom]
    obtain ⟨s1, f1, pre1, c1, h1, h2, h3, h4, h5⟩ :=
      ih fuel s3 f (pre ++ [cv]) x (wr ++ [x]) (hq3.trans hq2) (Or.inr hw3)
        (ht3.trans (ht2.trans ht)) hd3 ho3 hsink3 (hH3.trans (hH2.trans hH))
        (by simp at hfuel; omega)
    refine ⟨s1, f1, pre1, c1, (e2.trans e3).trans h1, ?_, h3, h4, h5⟩
    rw [h2]; simp

theorem running_start (g : Nat → String) (c : Int) (file H : String) :
    Running g c H (start true (Logger.new c file H)).2 [] :=
  ⟨0, [], "", [], [], absQueue_new, rfl, rfl, rfl, rfl, rfl, rfl, rfl,
    Or.inr ⟨Or.inl rfl, rfl⟩⟩

theorem stop_running (g : Nat → String) (c : Int) (H : String) (s : Logger)
    (adm : List String) (h : Running g c H s adm) :
    ∃ s1 un, stop g s = some s1 ∧ unread s.m_queue = some un ∧ s1.is_open = false ∧
      (s.worker ≠ Pc.checking →
        s1.sink = renderFrom g H 0 adm ∧ unread s1.m_queue = some []) ∧
      (s.worker = Pc.checking →
        s1.sink = s.sink ∧ unread s1.m_queue = some un ∧
        s1.sink ++ renderFrom g H s1.sink.length un = renderFrom g H 0 adm) := by
  obtain ⟨f, pre, cv, un, wr, hq, hsink, hH, hc, ho, ht, hd, hst, hw⟩ := h
  have hlen : s.m_queue.heap.length = f + (pre.length + (un.length + 1)) := by
    rw [hq]; simp [absQueue, absHeap_length]
  have hfuel : 2 * s.m_queue.heap.length + 4 = (2 * (f + pre.length) + 2 * un.length + 5) + 1 := by
    rw [hlen]; omega
  have hun : unread s.m_queue = some un := by rw [hq]; exact unread_absQueue f pre cv un
  unfold stop
  rw [if_pos hst, hfuel]
  rcases hw with ⟨hw1, hw2⟩ | ⟨hw1 | hw1 | hw1, hw2⟩
  · -- writing
    obtain ⟨s3, e3, hw3, hs3, hq3, ht3, hd3, ho3, hH3⟩ :=
      round_write g (2 * (f + pre.length) + 2 * un.length + 5) { s with m_terminate := true }
        hw1 ho hd
    have hsink3 : s3.sink = renderFrom g H 0 (wr ++ [s.str]) := by
      rw [hs3]
      show s.sink ++ [render (g s.sink.length) s.m_header s.str] = _
      rw [hsink, hH, renderFrom_append, renderFrom_length]
      simp [renderFrom]
    obtain ⟨s1, f1, pre1, c1, h1, h2, h3, h4, h5⟩ :=
      spin_drain g H un (2 * (f + pre.length) + 2 * un.length + 5) s3 f pre cv
        (wr ++ [s.str]) (hq3.trans hq) (Or.inr hw3)
        ht3 hd3 ho3 hsink3 (hH3.trans hH) (by omega)
    rw [e3, h1]
    refine ⟨_, un, rfl, hun, rfl, ?_, ?_⟩
    · intro _
      refine ⟨?_, ?_⟩
      · show s1.sink = _
        rw [h2, ← hw2]; simp
      · show unread s1.m_queue = _
        rw [h3]; exact unread_absQueue _ _ _ _
    · intro h; rw [hw1] at h; cases h
  · -- waiting
    obtain ⟨s1, f1, pre1, c1, h1, h2, h3, h4, h5⟩ :=
      spin_drain g H un (2 * (f + pre.length) + 2 * un.length + 5 + 1)
        { s with m_terminate := true } f pre cv wr hq (Or.inl hw1)
        rfl hd ho hsink hH (by omega)
    rw [h1]
    refine ⟨_, un, rfl, hun, rfl, ?_, ?_⟩
    · intro _
      refine ⟨?_, ?_⟩
      · show s1.sink = _
        rw [h2, hw2]
      · show unread s1.m_queue = _
        rw [h3]; exact unread_absQueue _ _ _ _
    · intro h; rw [hw1] at h; cases h
  · -- dequeuing
    obtain ⟨s1, f1, pre1, c1, h1, h2, h3, h4, h5⟩ :=
      spin_drain g H un (2 * (f + pre.length) + 2 * un.length + 5 + 1)
        { s with m_terminate := true } f pre cv wr hq (Or.inr hw1)
        rfl hd ho hsink hH (by omega)
    rw [h1]
    refine ⟨_, un, rfl, hun, rfl, ?_, ?_⟩
    · intro _
      refine ⟨?_, ?_⟩
      · show s1.sink = _
        rw [h2, hw2]
      · show unread s1.m_queue = _
        rw [h3]; exact unread_absQueue _ _ _ _
    · intro h; rw [hw1] at h; cases h
  · -- checking
    obtain ⟨s1, h1, h2, h3, h4, h5⟩ :=
      spin_check g (2 * (f + pre.length) + 2 * un.length + 5) { s with m_terminate := true }
        hw1 rfl hd
    rw [h1]
    refine ⟨_, un, rfl, hun, rfl, ?_, ?_⟩
    · intro h; exact absurd hw1 h
    · intro _
      refine ⟨h2, ?_, ?_⟩
      · show unread s1.m_queue = _
        rw [h3]; exact hun
      · show s1.sink ++ renderFrom g H s1.sink.length un = _
        rw [h2]
        show s.sink ++ renderFrom g H s.sink.length un = _
        rw [hsink, renderFrom_length, ← hw2, renderFrom_append, Nat.zero_add]

/-- What `stop` does after any schedule of `log` calls and worker steps on a
started logger.  It returns and closes the stream.  Unless the worker stands
before its loop test, the sink holds the lines of all admitted messages in call
order and no record is left unread.  If the worker stands before its loop test,
it exits without a drain: the records still unread are not written. -/
theorem stop_flushes_unless_worker_at_loop_test (g : Nat → String) (c : Int)
    (file H : String) (events : List Event) :
    ∃ s s1 un, exec g events (start true (Logger.new c file H)).2 = some s ∧
      stop g s = some s1 ∧ unread s.m_queue = some un ∧ s1.is_open = false ∧
      (s.worker ≠ Pc.checking →
        s1.sink = renderFrom g H 0 (admitted c (logCalls events)) ∧
        unread s1.m_queue = some []) ∧
      (s.worker = Pc.checking →
        s1.sink = s.sink ∧ unread s1.m_queue = some un ∧
        s1.sink ++ renderFrom g H s1.sink.length un
          = renderFrom g H 0 (admitted c (logCalls events))) := by
  obtain ⟨s, hs, hr⟩ := exec_running g c H events _ [] (running_start g c file H)
  obtain ⟨s1, un, h1, h2, h3, h4, h5⟩ := stop_running g c H s _ hr
  rw [List.nil_append] at h4 h5
  exact ⟨s, s1, un, hs, h1, h2, h3, h4, h5⟩

/-! ## Allocated cells of a canonical state -/

theorem countP_absHeap (f : Nat) (vals : List String) :
    (absHeap f vals).countP (fun cell => cell.isSome) = vals.length := by
  unfold absHeap
  rw [List.range_add, List.map_append, List.countP_append, List.map_map]
  have h1 : List.countP (fun cell : Option Node => cell.isSome)
      (List.map (fun i => if i < f then none
        else some ⟨vals.getD (i - f) "",
          if i + 1 < f + vals.length then some (i + 1) else none⟩) (List.range f)) = 0 := by
    rw [List.countP_eq_zero]
    intro a ha
    rw [List.mem_map] at ha
    obtain ⟨i, hi, rfl⟩ := ha
    rw [List.mem_range] at hi
    simp [hi]
  have h2 : List.countP (fun cell : Option Node => cell.isSome)
      (List.map ((fun i => if i < f then none
        else some ⟨vals.getD (i - f) "",
          if i + 1 < f + vals.length then some (i + 1) else none⟩) ∘ fun x => f + x)
        (List.range vals.length)) = vals.length := by
    have hl : (List.map ((fun i => if i < f then (none : Option Node)
        else some ⟨vals.getD (i - f) "",
          if i + 1 < f + vals.length then some (i + 1) else none⟩) ∘ fun x => f + x)
        (List.range vals.length)).length = vals.length := by simp
    refine (List.countP_eq_length.mpr ?_).trans hl
    intro a ha
    rw [List.mem_map] at ha
    obtain ⟨i, _, rfl⟩ := ha
    simp
  rw [h1, h2, Nat.zero_add]

theorem allocated_absQueue (f : Nat) (pre : List String) (c : String) (un : List String) :
    allocated (absQueue f pre c un) = pre.length + 1 + un.length := by
  unfold allocated
  simp only [absQueue, countP_absHeap]
  simp
  omega

/-! ## The claims -/

/-- C1: taken one call at a time, the queue is a FIFO.  After any sequence of
enqueue and dequeue calls on a fresh queue the calls have all returned, the
delivered messages are a prefix of the enqueued ones, and the next dequeue
returns false (leaving `result` and the queue alone) exactly when every enqueued
message has been delivered, and otherwise returns true with the oldest
undelivered message.  In particular enqueuing `ms` and calling dequeue
`ms.length + 1` times delivers `ms` in order and then returns false. -/
theorem queue_is_fifo (ops : List Op) (r : String) (ms : List String) :
    (∃ outs q b res q1,
      run ops Queue.new = some (outs, q) ∧
      dequeue r q = some (b, res, q1) ∧
      delivered outs <+: enqueued ops ∧
      (b = false ↔ delivered outs = enqueued ops) ∧
      (b = false → res = r ∧ q1 = q) ∧
      (b = true → (enqueued ops)[(delivered outs).length]? = some res)) ∧
    (∃ q, run (ms.map Op.enq ++ List.replicate (ms.length + 1) Op.deq) Queue.new
      = some (ms.map some ++ [none], q)) := by
  constructor
  · obtain ⟨outs, f, pre, c, un, hrun, _, hsplit⟩ := reach ops
    cases un with
    | nil =>
      refine ⟨outs, _, false, r, _, hrun, dequeue_absQueue_nil f pre c r, ⟨[], hsplit⟩, ?_, ?_, ?_⟩
      · simpa using hsplit
      · intro _; exact ⟨rfl, rfl⟩
      · intro h; cases h
    | cons x un =>
      refine ⟨outs, _, true, x, _, hrun, dequeue_absQueue_cons f pre c x un r,
        ⟨x :: un, hsplit⟩, ?_, ?_, ?_⟩
      · constructor
        · intro h; cases h
        · intro h
          rw [h] at hsplit
          simp at hsplit
      · intro h; cases h
      · intro _
        rw [← hsplit, List.getElem?_append_right (Nat.le_refl _)]
        simp
  · obtain ⟨outs, f, pre, c, un, hrun, houts, _⟩ :=
      reach (ms.map Op.enq ++ List.replicate (ms.length + 1) Op.deq)
    refine ⟨absQueue f pre c un, ?_⟩
    rw [hrun, houts, fifo_enqs, List.nil_append, fifo_deqs]

/-- C2: on a logger whose queue was reached from a fresh queue, `log` returns,
and it appends the message as the newest unread record exactly when the level
is at most `m_level` and termination has not been requested; in every other
case the logger, its queue included, is left as it was. -/
theorem log_admits_iff_level_le_and_not_terminated (ops : List Op) (s : Logger)
    (level : Int) (message : String) :
    ∃ outs q un s1, run ops Queue.new = some (outs, q) ∧ unread q = some un ∧
      log level message { s with m_queue := q } = some s1 ∧
      (unread s1.m_queue = some (un ++ [message]) ↔
        (level ≤ s.m_level ∧ s.m_terminate = false)) ∧
      (¬ (level ≤ s.m_level ∧ s.m_terminate = false) →
        s1 = { s with m_queue := q } ∧ unread s1.m_queue = some un) := by
  obtain ⟨outs, f, pre, c, un, hrun, _, _⟩ := reach ops
  refine ⟨outs, _, un, _, hrun, unread_absQueue f pre c un, log_absQueue s level message f pre c un,
    ?_, ?_⟩
  · by_cases h : level ≤ s.m_level ∧ s.m_terminate = false
    · simp only [h, and_self, if_true, iff_true]
      by_cases hu : un = []
      · simp only [hu, if_true, cond_signal]
        exact unread_absQueue _ _ _ _
      · simp only [hu, if_false]
        exact unread_absQueue _ _ _ _
    · simp only [h, if_false, iff_false]
      rw [unread_absQueue]
      simp
  · intro h
    rw [if_neg h]
    exact ⟨rfl, unread_absQueue _ _ _ _⟩

/-- C3, the schedule on which the claim fails.  Ceiling 2, header "H".  The
worker is woken by the signal of `log(0, "a")`, writes "a", finds the queue
empty and stands before its loop test; then the client calls `log(3, "b")`,
`log(1, "c")` and `stop()`.  The worker leaves its loop on the termination flag
without a further drain: the file holds the line of "a" only and is closed,
while "c" is still unread in the queue. -/
theorem stop_strands_message_logged_before_it (get_date_time : Nat → String) :
    admitted 2 [(0, "a"), (3, "b"), (1, "c")] = ["a", "c"] ∧
    ((exec get_date_time [Event.log 0 "a", Event.worker, Event.worker, Event.worker,
        Event.log 3 "b", Event.log 1 "c"] (start true (Logger.new 2 "x.log" "H")).2).bind
      (stop get_date_time)).map (fun s => (s.sink, unread s.m_queue, s.m_logger_died, s.is_open))
      = some ([render (get_date_time 0) "H" "a"], some ["c"], true, false) := by
  constructor
  · decide
  · rfl

/-- C4, the claim as stated fails: after `enqueue("a")` and one `dequeue` no
record is unread, yet `contains_one()` returns true. -/
theorem contains_one_true_with_none_unread :
    ¬ ∀ q, (run [Op.enq "a", Op.deq] Queue.new).map Prod.snd = some q →
      (contains_one q = some true ↔ (unread q).map List.length = some 1) := by
  intro h
  have h1 := h _ rfl
  revert h1
  decide

/-- C4, amended: in every state reached from a fresh queue `contains_one()`
returns true exactly when the retired nodes (from `first` up to but excluding
`divider`) and the unread records together number one.  It is false on a fresh
queue, and directly after any enqueue, which reclaims every retired node, it is
true exactly when one record is unread. -/
theorem contains_one_counts_retired_and_unread (ops : List Op) (t : String) :
    contains_one Queue.new = some false ∧
    ∃ outs q rt un q1 un1, run ops Queue.new = some (outs, q) ∧
      retired q = some rt ∧ unread q = some un ∧
      contains_one q = some (decide (rt.length + un.length = 1)) ∧
      enqueue t q = some q1 ∧ unread q1 = some un1 ∧
      contains_one q1 = some (decide (un1.length = 1)) := by
  refine ⟨by decide, ?_⟩
  obtain ⟨outs, f, pre, c, un, hrun, _, _⟩ := reach ops
  refine ⟨outs, _, _, un, _, _, hrun, retired_absQueue f pre c un, unread_absQueue f pre c un,
    ?_, enqueue_absQueue f pre c un t, unread_absQueue _ _ _ _, ?_⟩
  · rw [contains_one_absQueue]; simp
  · rw [contains_one_absQueue]; simp

/-- C5, the claim as stated fails: on a logger with ceiling 2 that was started
and stopped, `log(0, "a")` leaves the queue without any unread record. -/
theorem log_after_stop_queues_nothing :
    ((stop (fun _ => "t") (start true (Logger.new 2 "x.log" "H")).2).bind
      (log 0 "a")).bind (fun s => unread s.m_queue) = some [] := by
  decide

/-- C5, amended: once `stop` has returned on a started logger, termination
stays requested and every `log` call, whatever its level, leaves the logger as
it was: the message is not queued, and nothing is written. -/
theorem log_after_stop_is_noop (get_date_time : Nat → String) (s s1 : Logger)
    (level : Int) (message : String)
    (hs : s.m_logger_started = true) (h : stop get_date_time s = some s1) :
    s1.m_terminate = true ∧ s1.is_open = false ∧ log level message s1 = some s1 := by
  unfold stop at h
  rw [if_pos hs] at h
  cases h2 : spin get_date_time (2 * s.m_queue.heap.length + 4) { s with m_terminate := true } with
  | none => rw [h2] at h; cases h
  | some s2 =>
    rw [h2] at h
    cases h
    have ht := spin_terminate get_date_time _ _ _ h2
    simp only at ht
    refine ⟨ht, rfl, ?_⟩
    unfold log
    simp [ht]

theorem log_after_stop_is_noop_witness :
    ∃ s1, (start true (Logger.new 2 "x.log" "H")).2.m_logger_started = true ∧
      stop (fun _ => "t") (start true (Logger.new 2 "x.log" "H")).2 = some s1 ∧
      s1.m_terminate = true ∧ s1.is_open = false ∧ log 0 "a" s1 = some s1 := by
  have hsome : (stop (fun _ => "t") (start true (Logger.new 2 "x.log" "H")).2).isSome = true := by
    decide
  obtain ⟨s1, h⟩ := Option.isSome_iff_exists.mp hsome
  exact ⟨s1, rfl, h,
    log_after_stop_is_noop (fun _ => "t") (start true (Logger.new 2 "x.log" "H")).2 s1 0 "a"
      rfl h⟩

/-- C6: on a logger whose stream is closed, `start` returns 0, sets
`m_logger_started` and leaves a worker waiting exactly when the open succeeds;
when the open fails it returns 1 and the logger is left as it was. -/
theorem start_reports_open_outcome (openOk : Bool) (s : Logger) (h : s.is_open = false) :
    ((start openOk s).1 = 0 ↔ openOk = true) ∧
    (((start openOk s).1 = 0 ∧ (start openOk s).2.m_logger_started = true ∧
        (start openOk s).2.worker = Pc.waiting ∧ (start openOk s).2.is_open = true)
      ↔ openOk = true) ∧
    (openOk = false → (start openOk s).1 = 1 ∧ (start openOk s).2 = s) := by
  cases openOk
  · simp [start, h]
    cases s
    simp_all
  · simp [start, h]

theorem start_reports_open_outcome_witness :
    (Logger.new 2 "x.log" "H").is_open = false ∧
    (((start true (Logger.new 2 "x.log" "H")).1 = 0 ↔ true = true) ∧
    (((start true (Logger.new 2 "x.log" "H")).1 = 0 ∧
        (start true (Logger.new 2 "x.log" "H")).2.m_logger_started = true ∧
        (start true (Logger.new 2 "x.log" "H")).2.worker = Pc.waiting ∧
        (start true (Logger.new 2 "x.log" "H")).2.is_open = true)
      ↔ true = true) ∧
    (true = false → (start true (Logger.new 2 "x.log" "H")).1 = 1 ∧
      (start true (Logger.new 2 "x.log" "H")).2 = Logger.new 2 "x.log" "H")) :=
  ⟨rfl, start_reports_open_outcome true (Logger.new 2 "x.log" "H") rfl⟩

/-- C7, a schedule on which the claim fails.  Producer 1 and producer 2 both
execute `last->next = new Node(..)` on the same `last` before either moves
`last`; the node of "m1" is overwritten in the chain.  The consumer then gets
"m2" from its first dequeue, and its second dequeue dereferences `NULL`: "m1" is
never delivered. -/
theorem two_producers_lose_a_record :
    ∃ q, runSteps [Step.link 1 "m1", Step.link 2 "m2", Step.publish 1, Step.publish 2,
        Step.reclaim 1, Step.reclaim 2, Step.deq] Queue.new = some ([some "m2"], q) ∧
      q.last = none ∧ dequeue "" q = none := by
  refine ⟨_, rfl, ?_, ?_⟩ <;> decide

/-- C8: in every state reached by enqueue and dequeue calls, the enqueue
returns and right after it `contains_one()` is true exactly when no record was
unread before; `log` therefore calls `pthread_cond_signal` once when it admits
the message and the queue was empty, and not at all otherwise. -/
theorem log_signals_iff_queue_was_empty (ops : List Op) (s : Logger)
    (level : Int) (message : String) :
    ∃ outs q un q1 s1, run ops Queue.new = some (outs, q) ∧ unread q = some un ∧
      enqueue message q = some q1 ∧ unread q1 = some (un ++ [message]) ∧
      contains_one q1 = some (decide (un = [])) ∧
      log level message { s with m_queue := q } = some s1 ∧
      s1.signals = s.signals +
        (if level ≤ s.m_level ∧ s.m_terminate = false ∧ un = [] then 1 else 0) := by
  obtain ⟨outs, f, pre, c, un, hrun, _, _⟩ := reach ops
  refine ⟨outs, _, un, _, _, hrun, unread_absQueue f pre c un, enqueue_absQueue f pre c un message,
    unread_absQueue _ _ _ _, ?_, log_absQueue s level message f pre c un, ?_⟩
  · rw [contains_one_absQueue]
    cases un <;> simp
  · by_cases h : level ≤ s.m_level ∧ s.m_terminate = false
    · by_cases hu : un = []
      · simp [h, hu, cond_signal]
      · simp [h, hu]
    · have h2 : ¬ (level ≤ s.m_level ∧ s.m_terminate = false ∧ un = []) := by
        intro h3; exact h ⟨h3.1, h3.2.1⟩
      simp only [h, h2, if_false, Nat.add_zero]

/-- C9: every state reached from the constructor by enqueue and dequeue calls
satisfies the cursor invariant, with exactly the enqueued and not yet delivered
messages in the nodes after `divider`; when `divider != last` both reads
`divider->next` and `divider->next->value` of dequeue are defined, and dequeue
returns. -/
theorem cursor_invariant (ops : List Op) (r : String) :
    ∃ outs q, run ops Queue.new = some (outs, q) ∧
      CursorInv q ((enqueued ops).drop (delivered outs).length) ∧
      (q.divider ≠ q.last →
        ∃ d n, q.heap.deref q.divider = some d ∧ q.heap.deref d.next = some n) ∧
      (dequeue r q).isSome = true := by
  obtain ⟨outs, f, pre, c, un, hrun, _, hsplit⟩ := reach ops
  refine ⟨outs, _, hrun, ?_, ?_, ?_⟩
  · rw [← hsplit, List.drop_left]
    exact cursorInv_absQueue f pre c un
  · intro hne
    cases un with
    | nil => exact absurd (by simp [absQueue]) hne
    | cons x un => exact deref_absQueue_divider f pre c x un
  · cases un with
    | nil => rw [dequeue_absQueue_nil]; rfl
    | cons x un => rw [dequeue_absQueue_cons]; rfl

/-- C10, the claim as stated fails: one cycle of one message leaves two nodes,
one cycle of two messages leaves three, so no baseline fits every `N`. -/
theorem node_count_has_no_fixed_baseline :
    (run (cycleOps ["a"]) Queue.new).bind (fun r => nodeCount r.2) = some 2 ∧
    (run (cycleOps ["a", "b"]) Queue.new).bind (fun r => nodeCount r.2) = some 3 ∧
    ¬ ∃ b : Nat,
      (run (cycleOps ["a"]) Queue.new).bind (fun r => nodeCount r.2) = some b ∧
      (run (cycleOps ["a", "b"]) Queue.new).bind (fun r => nodeCount r.2) = some b := by
  have e1 : (run (cycleOps ["a"]) Queue.new).bind (fun r => nodeCount r.2) = some 2 := by
    decide
  have e2 : (run (cycleOps ["a", "b"]) Queue.new).bind (fun r => nodeCount r.2) = some 3 := by
    decide
  refine ⟨e1, e2, ?_⟩
  rintro ⟨b, h1, h2⟩
  rw [e1] at h1
  rw [e2] at h2
  simp only [Option.some.injEq] at h1 h2
  omega

/-- C10, amended: after `N` enqueues followed by `N` dequeues on a fresh queue,
and after every further repetition of that cycle, no record is unread and the
queue holds exactly `N + 1` nodes, both as the chain from `first` and as the
allocated cells of the heap: the consumed nodes stay allocated until the next
enqueue deletes them, after which exactly two nodes are allocated and chained. -/
theorem node_count_after_cycles (ms : List String) (k : Nat) (t : String) :
    ∃ outs q q1, run (cycles ms (k + 1)) Queue.new = some (outs, q) ∧
      unread q = some [] ∧ nodeCount q = some (ms.length + 1) ∧
      allocated q = ms.length + 1 ∧
      enqueue t q = some q1 ∧ nodeCount q1 = some 2 ∧ allocated q1 = 2 := by
  have h0 : ms ≠ [] ∨ ([] : List String).length = ms.length := by
    cases ms with
    | nil => exact Or.inr rfl
    | cons m ms => exact Or.inl (by simp)
  obtain ⟨outs, f1, pre1, c1, hr, hl⟩ := run_cycles ms k 0 [] "" h0
  refine ⟨outs, _, _, by rw [absQueue_new]; exact hr, unread_absQueue _ _ _ _, ?_, ?_,
    enqueue_absQueue f1 pre1 c1 [] t, ?_, ?_⟩
  · rw [nodeCount_absQueue, hl]; simp
  · rw [allocated_absQueue, hl]; simp
  · rw [nodeCount_absQueue]; simp
  · rw [allocated_absQueue]; simp

end ink
